import Mathlib

/-!
Verification of the file-selection and rendering engine of `gather-files`
(`src/gather.rs`, `src/main.rs`).

Shallow embedding conventions:
* A filesystem path is a `List String` of components; an absolute path
  starts with the distinguished component `"/"` (Rust's `RootDir`).
* A filesystem subtree is an `FsEntry` (file with contents, or directory
  with a name-ordered list of children; the list order is the platform's
  enumeration order).
* Rust `String`s are Lean `String`s; Rust `chars().count()` is
  `String.length` (both count Unicode scalar values), Rust `str::len` is
  `String.utf8ByteSize`.
* Glob matching (`globwalk`/`globset`, external dependencies of the repo)
  is abstracted as a predicate `String → List String → Bool` taking the
  pattern text and the path, relative to the walk base, of a candidate
  entry; the walk structure, directory pruning, exclude filtering,
  sorting and merging are modelled from the source.
* Fallible operations return `Except String`, mirroring `anyhow::Result`.
-/

/-- `IGNORED_DIRS` from `gather.rs`: directories skipped during recursive
walks when gathering paths. -/
def IGNORED_DIRS : List String := [".git", "target", "node_modules"]

/-- Display form of a path (Rust `Path::display`), joining components
with `/`. -/
def pathDisplay (p : List String) : String :=
  match p with
  | "/" :: rest => "/" ++ String.intercalate "/" rest
  | _ => String.intercalate "/" p

/-- Rust `Path::strip_prefix`: succeeds when `base` is a component-wise
prefix of `p`, returning the remaining components. -/
def stripPrefix (base p : List String) : Option (List String) :=
  if base.isPrefixOf p then some (p.drop base.length) else none

/-- Rust `Path::is_absolute` under our path encoding. -/
def isAbsolutePath (p : List String) : Bool := p.head? == some "/"

/-- Split a character list at `/` separators. -/
def splitSlash : List Char → List (List Char)
  | [] => [[]]
  | c :: rest =>
    let r := splitSlash rest
    if c = '/' then [] :: r
    else
      match r with
      | [] => [[c]]
      | h :: t => (c :: h) :: t

/-- Parse a free-form string into path components
(Rust `Path::new(s).components()`): empty components collapse, a leading
`/` becomes the root component. -/
def parsePath (s : String) : List String :=
  let comps := ((splitSlash s.data).map String.mk).filter (fun c => c ≠ "")
  if s.data.head? == some '/' then "/" :: comps else comps

/-- Boolean lexicographic comparison of character lists (Unicode scalar
order, which agrees with Rust’s byte-wise `str` comparison under UTF-8).
-/
def listLtb : List Char → List Char → Bool
  | [], [] => false
  | [], _ :: _ => true
  | _ :: _, [] => false
  | c :: cs, d :: ds => if c < d then true else if c = d then listLtb cs ds else false

/-- Strict comparison of strings, byte/scalar lexicographic. -/
def strLtb (a b : String) : Bool := listLtb a.data b.data

theorem listLtb_irrefl : ∀ a, listLtb a a = false
  | [] => rfl
  | c :: cs => by simp [listLtb, lt_irrefl, listLtb_irrefl cs]

theorem listLtb_asymm : ∀ a b, listLtb a b = true → listLtb b a = false
  | [], [], h => by simp [listLtb] at h
  | [], _ :: _, _ => rfl
  | _ :: _, [], h => by simp [listLtb] at h
  | c :: cs, d :: ds, h => by
    by_cases hcd : c < d
    · simp [listLtb, lt_asymm hcd, (ne_of_lt hcd).symm]
    · simp only [listLtb, if_neg hcd] at h
      by_cases hce : c = d
      · subst hce
        simp only [if_pos rfl] at h
        simp [listLtb, lt_irrefl, listLtb_asymm cs ds h]
      · simp [hce] at h

theorem listLtb_trans : ∀ a b c, listLtb a b = true → listLtb b c = true →
    listLtb a c = true
  | [], [], _, hab, _ => by simp [listLtb] at hab
  | [], _ :: _, [], _, hbc => by simp [listLtb] at hbc
  | [], _ :: _, _ :: _, _, _ => rfl
  | _ :: _, [], _, hab, _ => by simp [listLtb] at hab
  | _ :: _, _ :: _, [], _, hbc => by simp [listLtb] at hbc
  | x :: xs, y :: ys, z :: zs, hab, hbc => by
    by_cases hxy : x < y
    · by_cases hyz : y < z
      · simp [listLtb, lt_trans hxy hyz]
      · simp only [listLtb, if_neg hyz] at hbc
        by_cases hyz2 : y = z
        · subst hyz2; simp [listLtb, hxy]
        · simp [hyz2] at hbc
    · simp only [listLtb, if_neg hxy] at hab
      by_cases hxy2 : x = y
      · subst hxy2
        simp only [if_pos rfl] at hab
        by_cases hxz : x < z
        · simp [listLtb, hxz]
        · simp only [listLtb, if_neg hxz] at hbc ⊢
          by_cases hxz2 : x = z
          · subst hxz2
            simp only [if_pos rfl] at hbc ⊢
            exact listLtb_trans xs ys zs hab hbc
          · simp [hxz2] at hbc
      · simp [hxy2] at hab

theorem listLtb_connex : ∀ a b, listLtb a b = false → listLtb b a = false → a = b
  | [], [], _, _ => rfl
  | [], _ :: _, hab, _ => by simp [listLtb] at hab
  | _ :: _, [], _, hba => by simp [listLtb] at hba
  | c :: cs, d :: ds, hab, hba => by
    rcases lt_trichotomy c d with h | h | h
    · simp [listLtb, h] at hab
    · subst h
      simp only [listLtb, lt_irrefl, if_false, if_pos rfl] at hab hba
      rw [listLtb_connex cs ds hab hba]
    · simp [listLtb, h] at hba

/-- Rust `PathBuf`’s `Ord`: component-wise lexicographic comparison, each
component compared as a string in byte/scalar order. -/
def pathLe : List String → List String → Bool
  | [], _ => true
  | _ :: _, [] => false
  | x :: xs, y :: ys => if strLtb x y then true else if x = y then pathLe xs ys else false

/-- `pathLe` as a proposition, for use with Mathlib’s sorting lemmas. -/
def PathLeP (a b : List String) : Prop := pathLe a b = true

instance : DecidableRel PathLeP := fun a b =>
  inferInstanceAs (Decidable (pathLe a b = true))

theorem strLtb_irrefl (a : String) : strLtb a a = false := listLtb_irrefl a.data

theorem strLtb_asymm {a b : String} (h : strLtb a b = true) : strLtb b a = false :=
  listLtb_asymm a.data b.data h

theorem strLtb_trans {a b c : String} (hab : strLtb a b = true)
    (hbc : strLtb b c = true) : strLtb a c = true :=
  listLtb_trans a.data b.data c.data hab hbc

theorem strLtb_connex {a b : String} (hab : strLtb a b = false)
    (hba : strLtb b a = false) : a = b := by
  cases a; cases b
  exact congrArg String.mk (listLtb_connex _ _ hab hba)

theorem pathLe_cons (x y : String) (xs ys : List String) :
    pathLe (x :: xs) (y :: ys) =
      if strLtb x y then true else if x = y then pathLe xs ys else false := rfl

theorem strLtb_eq_false_of_not {a b : String} (h : ¬strLtb a b = true) :
    strLtb a b = false := by
  cases hv : strLtb a b
  · rfl
  · exact absurd hv h

instance : IsTotal (List String) PathLeP where
  total a b := by
    induction a generalizing b with
    | nil => exact Or.inl rfl
    | cons x xs ih =>
      cases b with
      | nil => exact Or.inr rfl
      | cons y ys =>
        by_cases hxy : strLtb x y = true
        · refine Or.inl ?_
          unfold PathLeP
          rw [pathLe_cons, if_pos hxy]
        · by_cases hyx : strLtb y x = true
          · refine Or.inr ?_
            unfold PathLeP
            rw [pathLe_cons, if_pos hyx]
          · have hxy2 : x = y :=
              strLtb_connex (strLtb_eq_false_of_not hxy) (strLtb_eq_false_of_not hyx)
            subst hxy2
            rcases ih ys with h2 | h2
            · refine Or.inl ?_
              unfold PathLeP at h2 ⊢
              rw [pathLe_cons, if_neg hxy, if_pos rfl]
              exact h2
            · refine Or.inr ?_
              unfold PathLeP at h2 ⊢
              rw [pathLe_cons, if_neg hxy, if_pos rfl]
              exact h2

instance : IsTrans (List String) PathLeP where
  trans a b c hab hbc := by
    induction a generalizing b c with
    | nil => exact rfl
    | cons x xs ih =>
      cases b with
      | nil => exact absurd hab (by simp [PathLeP, pathLe])
      | cons y ys =>
        cases c with
        | nil => exact absurd hbc (by simp [PathLeP, pathLe])
        | cons z zs =>
          unfold PathLeP at hab hbc ⊢
          rw [pathLe_cons] at hab hbc ⊢
          by_cases hxy : strLtb x y = true
          · by_cases hyz : strLtb y z = true
            · rw [if_pos (strLtb_trans hxy hyz)]
            · rw [if_neg hyz] at hbc
              by_cases hyz2 : y = z
              · subst hyz2
                rw [if_pos hxy]
              · rw [if_neg hyz2] at hbc
                exact Bool.noConfusion hbc
          · rw [if_neg hxy] at hab
            by_cases hxy2 : x = y
            · subst hxy2
              rw [if_pos rfl] at hab
              by_cases hxz : strLtb x z = true
              · rw [if_pos hxz]
              · rw [if_neg hxz] at hbc ⊢
                by_cases hxz2 : x = z
                · subst hxz2
                  rw [if_pos rfl] at hbc ⊢
                  exact ih ys zs hab hbc
                · rw [if_neg hxz2] at hbc
                  exact Bool.noConfusion hbc
            · rw [if_neg hxy2] at hab
              exact Bool.noConfusion hab

instance : IsAntisymm (List String) PathLeP where
  antisymm a b hab hba := by
    induction a generalizing b with
    | nil =>
      cases b with
      | nil => rfl
      | cons y ys => exact absurd hba (by simp [PathLeP, pathLe])
    | cons x xs ih =>
      cases b with
      | nil => exact absurd hab (by simp [PathLeP, pathLe])
      | cons y ys =>
        unfold PathLeP at hab hba
        rw [pathLe_cons] at hab hba
        by_cases hxy : strLtb x y = true
        · have hyx : ¬strLtb y x = true := by
            rw [strLtb_asymm hxy]
            exact Bool.noConfusion
          rw [if_neg hyx] at hba
          by_cases hyx2 : y = x
          · subst hyx2
            rw [strLtb_irrefl] at hxy
            exact Bool.noConfusion hxy
          · rw [if_neg hyx2] at hba
            exact Bool.noConfusion hba
        · rw [if_neg hxy] at hab
          by_cases hxy2 : x = y
          · subst hxy2
            rw [if_neg hxy] at hba
            rw [if_pos rfl] at hab hba
            rw [ih ys hab hba]
          · rw [if_neg hxy2] at hab
            exact Bool.noConfusion hab

/-- Model of Rust's `Vec::sort_unstable` on `Vec<PathBuf>`: any comparison
sort over the total, antisymmetric `PathLeP` order produces the same
list, so we use insertion sort. -/
def sortPaths (l : List (List String)) : List (List String) :=
  List.insertionSort PathLeP l

/-! ## Filesystem model -/

mutual
/-- A filesystem subtree: a regular file with contents, or a directory
with named children (child order is the filesystem enumeration order). -/
inductive FsEntry where
  | file (contents : String)
  | dir (entries : FsEntries)

/-- Children of a directory: an ordered list of (name, subtree) pairs. -/
inductive FsEntries where
  | nil
  | cons (name : String) (entry : FsEntry) (rest : FsEntries)
end

deriving instance DecidableEq for FsEntry, FsEntries

/-- View of directory children as an ordinary list. -/
def FsEntries.toList : FsEntries → List (String × FsEntry)
  | .nil => []
  | .cons n e rest => (n, e) :: rest.toList

/-- Rust `FileType::is_dir` of the entry at hand. -/
def FsEntry.isDir : FsEntry → Bool
  | .file _ => false
  | .dir _ => true

/-- `is_ignored_dir` from `gather.rs`: an entry is skipped iff it is a
directory and its file name (the last component of its path) is one of
`IGNORED_DIRS`. Regular files are never skipped. -/
def is_ignored_dir (p : List String) (e : FsEntry) : Bool :=
  if !e.isDir then false
  else
    match p.getLast? with
    | some n => IGNORED_DIRS.contains n
    | none => false

mutual
/-- The `WalkDir::new(path)` traversal of `collect_from_path`, with
`filter_entry(|e| !is_ignored_dir(e))` applied to every entry (the walk
root included) and only file entries collected, in depth-first
enumeration order. `p` is the full path of the entry `e`. -/
def walkEntry (p : List String) (e : FsEntry) : List (List String) :=
  if is_ignored_dir p e then []
  else
    match e with
    | .file _ => [p]
    | .dir es => walkEntries p es
termination_by structural e

/-- Walk all children of a directory whose full path is `p`. -/
def walkEntries (p : List String) (es : FsEntries) : List (List String) :=
  match es with
  | .nil => []
  | .cons n e rest => walkEntry (p ++ [n]) e ++ walkEntries p rest
termination_by structural es
end

/-- `is_readme` from `gather.rs`: the file name, ASCII-lower-cased,
starts with `"readme"`. -/
def is_readme (p : List String) : Bool :=
  match p.getLast? with
  | some name => "readme".data.isPrefixOf (name.data.map Char.toLower)
  | none => false

/-- `is_direct_child` from `gather.rs`: `path.strip_prefix(base)` succeeds
and the remainder has exactly one component. -/
def is_direct_child (base p : List String) : Bool :=
  match stripPrefix base p with
  | some rel => rel.length == 1
  | none => false

/-- The loop of `find_preferred_readme`: scan `files` keeping the index
of the first README seen as `fallback`; return immediately on a README
that is a direct child of `base`. -/
def findLoop (base : List String) : List (List String) → Nat → Option Nat → Option Nat
  | [], _, fallback => fallback
  | p :: rest, idx, fallback =>
    if !is_readme p then findLoop base rest (idx + 1) fallback
    else if is_direct_child base p then some idx
    else
      findLoop base rest (idx + 1)
        (match fallback with
         | some f => some f
         | none => some idx)

/-- `find_preferred_readme` from `gather.rs`. -/
def find_preferred_readme (base : List String) (files : List (List String)) : Option Nat :=
  findLoop base files 0 none

/-- `promote_readme` from `gather.rs`: with more than one entry, move the
preferred README (if any) to position 0. -/
def promote_readme (base : List String) (files : List (List String)) : List (List String) :=
  if files.length ≤ 1 then files
  else
    match find_preferred_readme base files with
    | none => files
    | some idx =>
      if idx = 0 then files
      else
        match files[idx]? with
        | none => files
        | some readme => readme :: files.eraseIdx idx

/-- `collect_from_path` from `gather.rs`, for an existing entry `e` at
path `p`: a single file is returned as-is; a directory is walked with
ignored directories pruned, the files sorted by full path, and the
README promoted with the target path as base. -/
def collect_from_path (p : List String) (e : FsEntry) : List (List String) :=
  match e with
  | .file _ => [p]
  | .dir es => promote_readme p (sortPaths (walkEntry p (.dir es)))

/-- `collect_from_path` including the existence check, over a filesystem
given as a partial map from paths to subtrees (`anyhow::Result` modelled
as `Except String`). -/
def collectFromPathFs (fs : List String → Option FsEntry) (p : List String) :
    Except String (List (List String)) :=
  match fs p with
  | none => .error ("path '" ++ pathDisplay p ++ "' does not exist")
  | some e => .ok (collect_from_path p e)

/-- Rust `str::ends_with('\n')`: the last character is a newline. -/
def endsWithNewline (s : String) : Bool := s.data.getLast? == some '\n'

/-! ## Renderer -/

/-- `display_path` from `gather.rs`: the path relative to `root` when it
is a proper descendant, the path itself when it equals `root` or is not
under it. -/
def display_path (p root : List String) : String :=
  match stripPrefix root p with
  | some rel => if rel.isEmpty then pathDisplay p else pathDisplay rel
  | none => pathDisplay p

/-- `append_file_section` from `gather.rs`: append one rendered section
to `output` and return the new output together with the unit count of
the section. The fixed header pieces are counted with Rust `str::len`
(bytes) and the display name and contents with `chars().count()`
(scalar values), exactly as in the source. -/
def append_file_section (output display contents : String) : String × Nat :=
  let headerStart := "-------\n# "
  let headerBlank := "\n\n"
  let out := output ++ headerStart ++ display ++ headerBlank ++ contents
  let count := headerStart.utf8ByteSize + display.length + headerBlank.utf8ByteSize + contents.length
  let step : String × Nat :=
    if endsWithNewline contents then (out, count) else (out ++ "\n", count + 1)
  (step.1 ++ "\n", step.2 + 1)

/-- The loop of `render_files`: read each file, append its section,
accumulate the unit count; fail on the first unreadable file. -/
def renderLoop (fs : List String → Option String) (root : List String) :
    List (List String) → String → Nat → Except String (String × Nat)
  | [], output, cnt => .ok (output, cnt)
  | p :: rest, output, cnt =>
    match fs p with
    | none => .error ("failed to read " ++ pathDisplay p)
    | some contents =>
      let out := append_file_section output (display_path p root) contents
      renderLoop fs root rest out.1 (cnt + out.2)

/-- `render_files` from `gather.rs`, over a filesystem given as a partial
map from paths to readable text contents. -/
def render_files (fs : List String → Option String) (files : List (List String))
    (root : List String) : Except String (String × Nat) :=
  renderLoop fs root files "" 0

/-- Modelled from the spec's rendered-section format (§6): delimiter
line, `# `+display name, blank line, raw contents, a newline inserted
only when the contents do not already end in one, then one final
newline. Used to compare the source renderer against the spec. -/
def sectionText (display contents : String) : String :=
  "-------\n# " ++ display ++ "\n\n" ++ contents ++
    (if endsWithNewline contents then "" else "\n") ++ "\n"

/-- Concatenation of rendered sections with no separator and no leading
or trailing content. -/
def concatSections : List String → String
  | [] => ""
  | s :: rest => s ++ concatSections rest

/-! ## Preset collector -/

/-- `Preset` from `config.rs` (`include` is a Lean keyword, hence the
field names `includes`/`excludes`). The `base` field is an optional
path. -/
structure Preset where
  includes : List String
  excludes : List String
  base : Option (List String)

/-- `resolve_base` from `gather.rs`. -/
def resolve_base (preset : Preset) (repoRoot : List String) : List String :=
  match preset.base with
  | some b => if isAbsolutePath b then b else repoRoot ++ b
  | none => repoRoot

/-- `ignored_dir_globs` from `gather.rs`: the auxiliary negative glob
patterns `!**/<dir>/` compiled into every preset walk. Their semantics —
pruning any directory named in `IGNORED_DIRS` at any depth below the
walk base — is modelled structurally in `patEntry`. -/
def ignored_dir_globs : List String :=
  IGNORED_DIRS.map (fun dir => "!**/" ++ dir ++ "/")

/-- `build_globset` from `gather.rs`: an empty exclude list compiles to
`None` (a matcher that never excludes). -/
def build_globset (patterns : List String) : Option (List String) :=
  if patterns.isEmpty then none else some patterns

/-- `matches_exclude` from `gather.rs`: test the path relative to `base`
(the path itself when `strip_prefix` fails) against the compiled exclude
set; `exclMatcher` abstracts `globset`'s single-pattern matching. -/
def matches_exclude (exclMatcher : String → List String → Bool)
    (set : Option (List String)) (base path : List String) : Bool :=
  match set with
  | some ps => ps.any (fun pat => exclMatcher pat ((stripPrefix base path).getD path))
  | none => false

mutual
/-- The `GlobWalkerBuilder` traversal of `collect_pattern_matches`:
`rel` is the path of `e` relative to the walk base. Directories named in
`IGNORED_DIRS` are pruned at any depth (the negative `!**/<dir>/`
patterns; the base itself, whose relative path is empty, is never
checked); directory entries are discarded; a file entry is kept iff the
include pattern matches its relative path (`matcher` abstracts the glob
semantics). -/
def patEntry (matcher : String → List String → Bool) (pattern : String)
    (rel : List String) (e : FsEntry) : List (List String) :=
  if is_ignored_dir rel e then []
  else
    match e with
    | .file _ => if matcher pattern rel then [rel] else []
    | .dir es => patEntries matcher pattern rel es
termination_by structural e

/-- Glob walk over all children of a directory at relative path `rel`. -/
def patEntries (matcher : String → List String → Bool) (pattern : String)
    (rel : List String) (es : FsEntries) : List (List String) :=
  match es with
  | .nil => []
  | .cons n e rest =>
    patEntry matcher pattern (rel ++ [n]) e ++ patEntries matcher pattern rel rest
termination_by structural es
end

/-- `collect_pattern_matches` from `gather.rs`: glob walk from the base,
drop excluded files, return the surviving full paths sorted. -/
def collect_pattern_matches (matcher exclMatcher : String → List String → Bool)
    (pattern : String) (base : List String) (excl : Option (List String))
    (es : FsEntries) : List (List String) :=
  let rels := patEntries matcher pattern [] es
  let fulls := rels.map (fun rel => base ++ rel)
  sortPaths (fulls.filter (fun path => !matches_exclude exclMatcher excl base path))

/-- `IndexSet::insert`: append iff not already present (first-insertion
order, deduplicating by path). -/
def insertIdem (l : List (List String)) (a : List String) : List (List String) :=
  if a ∈ l then l else l ++ [a]

/-- The pattern loop of `collect_from_preset`: in configuration order,
collect each pattern's matches, failing on a pattern with no surviving
matches, and merge into the insertion-ordered set. -/
def presetLoop (matcher exclMatcher : String → List String → Bool) (name : String)
    (base : List String) (excl : Option (List String)) (es : FsEntries) :
    List String → List (List String) → Except String (List (List String))
  | [], ordered => .ok ordered
  | pattern :: rest, ordered =>
    let pm := collect_pattern_matches matcher exclMatcher pattern base excl es
    if pm.isEmpty then
      .error ("no files matched pattern '" ++ pattern ++ "' in preset '" ++ name ++ "'")
    else
      presetLoop matcher exclMatcher name base excl es rest (pm.foldl insertIdem ordered)

/-- The directory children found at path `p` in the filesystem map (an
absent or non-directory base yields no walk entries). -/
def entriesAt (fs : List String → Option FsEntry) (p : List String) : FsEntries :=
  match fs p with
  | some (.dir es) => es
  | _ => .nil

/-- `collect_from_preset` from `gather.rs`. -/
def collect_from_preset (matcher exclMatcher : String → List String → Bool)
    (fs : List String → Option FsEntry) (name : String) (preset : Preset)
    (repoRoot : List String) : Except String (List (List String)) :=
  let base := resolve_base preset repoRoot
  let excl := build_globset preset.excludes
  (presetLoop matcher exclMatcher name base excl (entriesAt fs base) preset.includes []).map
    (fun files => promote_readme base files)

/-! ## Target resolution (`main.rs`) -/

/-- `ConfigFile` from `config.rs`: named presets in declaration order. -/
structure ConfigFile where
  version : Nat
  presets : List (String × Preset)

/-- `ConfigFile::preset`: fetch a preset by name. -/
def ConfigFile.preset (c : ConfigFile) (name : String) : Option Preset :=
  (c.presets.find? (fun x => x.1 == name)).map (fun x => x.2)

/-- `parse_target_path` from `main.rs`: an absolute argument is used
verbatim, a relative one is joined to the repository root. -/
def parse_target_path (argument : String) (repoRoot : List String) : List String :=
  let path := parsePath argument
  if isAbsolutePath path then path else repoRoot ++ path

/-- `determine_target` from `main.rs`: no argument gathers the repository
root; otherwise the argument is interpreted as a path, dispatching to the
path collector when that path exists, and only consulting the preset
configuration when it does not. -/
def determine_target (matcher exclMatcher : String → List String → Bool)
    (fs : List String → Option FsEntry)
    (target : Option String) (repoRoot : List String) (config : Option ConfigFile) :
    Except String (List (List String) × String) :=
  match target with
  | none =>
    (collectFromPathFs fs repoRoot).map
      (fun files => (files, "root " ++ pathDisplay repoRoot))
  | some argument =>
    let cand := parse_target_path argument repoRoot
    if (fs cand).isSome then
      (collectFromPathFs fs cand).map
        (fun files => (files, "path " ++ pathDisplay cand))
    else
      match config with
      | none => .error ("no config found when looking for preset '" ++ argument ++ "'")
      | some cfg =>
        match cfg.preset argument with
        | none => .error ("preset '" ++ argument ++ "' not found in config")
        | some preset =>
          (collect_from_preset matcher exclMatcher fs argument preset repoRoot).map
            (fun files => (files, "preset '" ++ argument ++ "'"))

/-- Decidable equality for `Except`, so concrete collector and renderer
results can be checked by `decide`. -/
instance {ε α : Type} [DecidableEq ε] [DecidableEq α] : DecidableEq (Except ε α) :=
  fun a b =>
    match a, b with
    | .ok x, .ok y => if h : x = y then .isTrue (by rw [h]) else .isFalse (by simp [h])
    | .error x, .error y => if h : x = y then .isTrue (by rw [h]) else .isFalse (by simp [h])
    | .ok _, .error _ => .isFalse (by simp)
    | .error _, .ok _ => .isFalse (by simp)

/-! ## Specification-side notions -/

/-- First-insertion-order deduplication: keep the first occurrence of
each element, drop later ones. This is the claim's description of the
preset merge, to be compared with the `IndexSet` fold of the source. -/
def firstKeep : List (List String) → List (List String)
  | [] => []
  | a :: l => a :: firstKeep (l.filter (fun b => b ≠ a))
termination_by l => l.length
decreasing_by
  simp only [List.length_cons]
  exact Nat.lt_succ_of_le (l.length_filter_le _)

/-- Index of the first element satisfying `p`. -/
def firstIdxWhere (p : List String → Bool) : List (List String) → Option Nat
  | [] => none
  | x :: l => if p x then some 0 else (firstIdxWhere p l).map (· + 1)

/-- Two filesystem subtrees that hold the same files with the same names
and contents, differing only in the enumeration order of directory
children (at any depth). -/
inductive TreePerm : FsEntry → FsEntry → Prop where
  | file (c : String) : TreePerm (.file c) (.file c)
  | nil : TreePerm (.dir .nil) (.dir .nil)
  | cons (n : String) {e₁ e₂ : FsEntry} {l₁ l₂ : FsEntries} :
      TreePerm e₁ e₂ → TreePerm (.dir l₁) (.dir l₂) →
      TreePerm (.dir (.cons n e₁ l₁)) (.dir (.cons n e₂ l₂))
  | swap (n₁ n₂ : String) (e₁ e₂ : FsEntry) (l : FsEntries) :
      TreePerm (.dir (.cons n₁ e₁ (.cons n₂ e₂ l)))
        (.dir (.cons n₂ e₂ (.cons n₁ e₁ l)))
  | trans {t₁ t₂ t₃ : FsEntry} :
      TreePerm t₁ t₂ → TreePerm t₂ t₃ → TreePerm t₁ t₃

/-! ## Renderer lemmas -/

theorem headerStart_utf8 : ("-------\n# " : String).utf8ByteSize = 10 := by decide

theorem headerStart_len : ("-------\n# " : String).length = 10 := by decide

theorem headerBlank_utf8 : ("\n\n" : String).utf8ByteSize = 2 := by decide

theorem headerBlank_len : ("\n\n" : String).length = 2 := by decide

theorem newline_len : ("\n" : String).length = 1 := by decide

theorem append_file_section_fst (output display contents : String) :
    (append_file_section output display contents).1 =
      output ++ sectionText display contents := by
  cases h : endsWithNewline contents <;>
    simp [append_file_section, sectionText, h, String.append_assoc, String.append_empty]

theorem append_file_section_len (output display contents : String) :
    (append_file_section output display contents).1.length =
      output.length + (append_file_section output display contents).2 := by
  cases h : endsWithNewline contents <;>
    simp [append_file_section, h, String.length_append, headerStart_utf8, headerStart_len,
      headerBlank_utf8, headerBlank_len, newline_len] <;>
    omega

theorem renderLoop_ok_len (fs : List String → Option String) (root : List String) :
    ∀ (files : List (List String)) (output : String) (cnt : Nat) (out : String) (total : Nat),
      renderLoop fs root files output cnt = .ok (out, total) →
      total + output.length = cnt + out.length := by
  intro files
  induction files with
  | nil =>
    intro output cnt out total h
    simp only [renderLoop, Except.ok.injEq, Prod.mk.injEq] at h
    obtain ⟨h1, h2⟩ := h
    subst h1; subst h2
    omega
  | cons p rest ih =>
    intro output cnt out total h
    simp only [renderLoop] at h
    cases hf : fs p with
    | none => rw [hf] at h; exact absurd h (by simp)
    | some c =>
      rw [hf] at h
      have hrec := ih _ _ _ _ h
      have hlen := append_file_section_len output (display_path p root) c
      omega

theorem renderLoop_ok_out (fs : List String → Option String) (root : List String) :
    ∀ (files : List (List String)) (output : String) (cnt : Nat) (out : String) (total : Nat),
      renderLoop fs root files output cnt = .ok (out, total) →
      out = output ++ concatSections
        (files.map (fun p => sectionText (display_path p root) ((fs p).getD ""))) := by
  intro files
  induction files with
  | nil =>
    intro output cnt out total h
    simp only [renderLoop, Except.ok.injEq, Prod.mk.injEq] at h
    obtain ⟨h1, _⟩ := h
    subst h1
    simp [concatSections, String.append_empty]
  | cons p rest ih =>
    intro output cnt out total h
    simp only [renderLoop] at h
    cases hf : fs p with
    | none => rw [hf] at h; exact absurd h (by simp)
    | some c =>
      rw [hf] at h
      have hrec := ih _ _ _ _ h
      rw [append_file_section_fst] at hrec
      simp only [List.map_cons, concatSections, hf, Option.getD_some]
      rw [hrec, String.append_assoc]

/-- C1: for every list of readable files, the unit count returned by the
renderer equals the number of Unicode scalar values of the full rendered
text (multi-byte characters count once, not per storage byte). -/
theorem render_count_eq_scalar_length (fs : List String → Option String)
    (files : List (List String)) (root : List String) (out : String) (total : Nat)
    (h : render_files fs files root = .ok (out, total)) : total = out.length := by
  have h2 := renderLoop_ok_len fs root files "" 0 out total h
  simpa using h2

/-- Witness for C1 at a concrete input containing multi-byte characters
(`α`, `é`). -/
theorem render_count_eq_scalar_length_witness :
    render_files (fun p => if p = ["α.txt"] then some "héllo" else none)
        [["α.txt"]] ["r"] = .ok ("-------\n# α.txt\n\nhéllo\n\n", 24) ∧
    (24 : Nat) = ("-------\n# α.txt\n\nhéllo\n\n" : String).length :=
  ⟨by decide,
    render_count_eq_scalar_length (fun p => if p = ["α.txt"] then some "héllo" else none)
      [["α.txt"]] ["r"] "-------\n# α.txt\n\nhéllo\n\n" 24 (by decide)⟩

/-- C2: the renderer emits, in file-set order with no other leading or
trailing content, exactly one section per file — delimiter line, `# `
plus the display name, blank line, raw contents, a newline appended iff
the contents do not already end in one, then one final newline — and
contents already ending in a newline get no duplicate while contents
without one get exactly one inserted. -/
theorem render_emits_exact_sections (fs : List String → Option String)
    (files : List (List String)) (root : List String) (out : String) (total : Nat)
    (h : render_files fs files root = .ok (out, total)) :
    out = concatSections
        (files.map (fun p => sectionText (display_path p root) ((fs p).getD ""))) ∧
    (∀ d c, endsWithNewline c = true →
      sectionText d c = "-------\n# " ++ d ++ "\n\n" ++ c ++ "\n") ∧
    (∀ d c, endsWithNewline c = false →
      sectionText d c = "-------\n# " ++ d ++ "\n\n" ++ c ++ "\n" ++ "\n") := by
  refine ⟨?_, ?_, ?_⟩
  · have h2 := renderLoop_ok_out fs root files "" 0 out total h
    simpa using h2
  · intro d c hc
    simp [sectionText, hc, String.append_assoc, String.append_empty]
  · intro d c hc
    simp [sectionText, hc, String.append_assoc]

/-- Witness for C2: one file ending in a newline (rendered without a
duplicate) and one without (exactly one inserted). -/
theorem render_emits_exact_sections_witness :
    render_files (fun p => if p = ["a"] then some "x\n" else if p = ["b"] then some "y" else none)
        [["a"], ["b"]] ["r"] = .ok ("-------\n# a\n\nx\n\n-------\n# b\n\ny\n\n", 32) ∧
    "-------\n# a\n\nx\n\n-------\n# b\n\ny\n\n" =
      concatSections ([["a"], ["b"]].map (fun p => sectionText (display_path p ["r"])
        (((fun q => if q = ["a"] then some "x\n" else if q = ["b"] then some "y" else none) p).getD ""))) :=
  ⟨by decide,
    (render_emits_exact_sections
      (fun q => if q = ["a"] then some "x\n" else if q = ["b"] then some "y" else none)
      [["a"], ["b"]] ["r"] "-------\n# a\n\nx\n\n-------\n# b\n\ny\n\n" 32 (by decide)).1⟩

/-! ## README promotion lemmas -/

theorem firstIdxWhere_some (p : List String → Bool) :
    ∀ (l : List (List String)) (i : Nat), firstIdxWhere p l = some i →
      ∃ h : i < l.length, p (l.get ⟨i, h⟩) = true ∧
        ∀ j (hj : j < i), p (l.get ⟨j, Nat.lt_trans hj h⟩) = false := by
  intro l
  induction l with
  | nil => intro i h; simp [firstIdxWhere] at h
  | cons x rest ih =>
    intro i h
    by_cases hp : p x = true
    · simp only [firstIdxWhere, hp, if_true, Option.some.injEq] at h
      subst h
      refine ⟨by simp, hp, ?_⟩
      intro j hj
      omega
    · simp only [firstIdxWhere, hp, if_false, Bool.false_eq_true] at h
      rcases Option.map_eq_some'.1 h with ⟨k, hk, hik⟩
      subst hik
      rcases ih k hk with ⟨hlt, hpk, hprev⟩
      refine ⟨by simpa using Nat.succ_lt_succ hlt, hpk, ?_⟩
      intro j hj
      cases j with
      | zero => simpa using hp
      | succ j2 => exact hprev j2 (by omega)

theorem firstIdxWhere_none (p : List String → Bool) :
    ∀ l : List (List String), firstIdxWhere p l = none ↔ ∀ x ∈ l, p x = false := by
  intro l
  induction l with
  | nil => simp [firstIdxWhere]
  | cons x rest ih =>
    by_cases hp : p x = true
    · simp [firstIdxWhere, hp]
    · simp only [firstIdxWhere, hp, if_false, Bool.false_eq_true, Option.map_eq_none',
        List.mem_cons]
      constructor
      · intro h q hq
        rcases hq with hq | hq
        · subst hq
          cases hv : p q
          · rfl
          · exact absurd hv hp
        · exact (ih.1 h) q hq
      · intro h
        exact ih.2 (fun q hq => h q (Or.inr hq))

theorem firstIdxWhere_isSome (p : List String → Bool) (l : List (List String))
    (x : List String) (hx : x ∈ l) (hpx : p x = true) :
    (firstIdxWhere p l).isSome = true := by
  cases hv : firstIdxWhere p l with
  | none => exact absurd ((firstIdxWhere_none p l).1 hv x hx) (by simp [hpx])
  | some k => rfl

theorem findLoop_eq (base : List String) :
    ∀ (files : List (List String)) (idx : Nat) (fallback : Option Nat),
      findLoop base files idx fallback =
        match firstIdxWhere (fun q => is_readme q && is_direct_child base q) files with
        | some k => some (idx + k)
        | none =>
          match fallback with
          | some f => some f
          | none => (firstIdxWhere is_readme files).map (fun k => idx + k) := by
  intro files
  induction files with
  | nil =>
    intro idx fallback
    cases fallback <;> simp [findLoop, firstIdxWhere]
  | cons p rest ih =>
    intro idx fallback
    by_cases hr : is_readme p = true
    · by_cases hd : is_direct_child base p = true
      · simp [findLoop, hr, hd, firstIdxWhere]
      · have hd2 : is_direct_child base p = false := by
          cases hv2 : is_direct_child base p
          · rfl
          · exact absurd hv2 hd
        have e1 : firstIdxWhere (fun q => is_readme q && is_direct_child base q) (p :: rest) =
            (firstIdxWhere (fun q => is_readme q && is_direct_child base q) rest).map
              (fun k => k + 1) := by
          simp [firstIdxWhere, hr, hd2]
        have e2 : firstIdxWhere is_readme (p :: rest) = some 0 := by
          simp [firstIdxWhere, hr]
        simp only [findLoop, hr, hd2, Bool.not_true, Bool.false_eq_true, if_false, if_true]
        rw [ih, e1, e2]
        cases hv : firstIdxWhere (fun q => is_readme q && is_direct_child base q) rest with
        | some k =>
          simp only [Option.map_some']
          exact congrArg some (by omega)
        | none =>
          cases fallback with
          | some f => simp
          | none => simp
    · have hr2 : is_readme p = false := by
        cases hv2 : is_readme p
        · rfl
        · exact absurd hv2 hr
      have e1 : firstIdxWhere (fun q => is_readme q && is_direct_child base q) (p :: rest) =
          (firstIdxWhere (fun q => is_readme q && is_direct_child base q) rest).map
            (fun k => k + 1) := by
        simp [firstIdxWhere, hr2]
      have e2 : firstIdxWhere is_readme (p :: rest) =
          (firstIdxWhere is_readme rest).map (fun k => k + 1) := by
        simp [firstIdxWhere, hr2]
      simp only [findLoop, hr2, Bool.not_false, Bool.false_eq_true, if_false, if_true]
      rw [ih, e1, e2]
      cases hv : firstIdxWhere (fun q => is_readme q && is_direct_child base q) rest with
      | some k =>
        simp only [Option.map_some']
        exact congrArg some (by omega)
      | none =>
        cases fallback with
        | some f => simp
        | none =>
          cases hw : firstIdxWhere is_readme rest with
          | some k =>
            simp only [Option.map_some']
            exact congrArg some (by omega)
          | none => simp

theorem find_preferred_readme_eq (base : List String) (files : List (List String)) :
    find_preferred_readme base files =
      match firstIdxWhere (fun q => is_readme q && is_direct_child base q) files with
      | some k => some k
      | none => firstIdxWhere is_readme files := by
  unfold find_preferred_readme
  rw [findLoop_eq]
  cases hv : firstIdxWhere (fun q => is_readme q && is_direct_child base q) files with
  | some k => simp
  | none =>
    cases hw : firstIdxWhere is_readme files <;> simp

theorem cons_get_eraseIdx_zero (files : List (List String)) (h : 0 < files.length) :
    files = files.get ⟨0, h⟩ :: files.eraseIdx 0 := by
  cases files with
  | nil => simp at h
  | cons x rest => simp

/-- The promotion equation: when `find_preferred_readme` returns `some i`
on a set with more than one entry, the result is exactly the chosen
entry moved to the front, all other entries keeping their order. -/
theorem promote_readme_eq_of_find (base : List String) (files : List (List String))
    (hlen : 1 < files.length) (i : Nat) (hfind : find_preferred_readme base files = some i)
    (hi : i < files.length) :
    promote_readme base files = files.get ⟨i, hi⟩ :: files.eraseIdx i := by
  unfold promote_readme
  rw [if_neg (by omega), hfind]
  dsimp only
  by_cases h0 : i = 0
  · subst h0
    rw [if_pos rfl]
    exact cons_get_eraseIdx_zero files (by omega)
  · rw [if_neg h0, List.getElem?_eq_getElem hi]
    rfl

/-- C4: a non-empty file set that contains a qualifying README (name,
lower-cased, starting with `readme`) has a qualifying README at position
0 after promotion; with more than one entry, the promoted entry is a
direct-child README of the base when one exists, otherwise the
first-encountered README in set order, and all other entries keep their
relative order (the result is exactly the chosen entry consed onto the
list with it removed). -/
theorem promote_readme_spec (base : List String) (files : List (List String))
    (hne : files ≠ [])
    (hr : ∃ q ∈ files, is_readme q = true) :
    (∃ r, (promote_readme base files).head? = some r ∧ is_readme r = true) ∧
    (1 < files.length →
      ∃ i, ∃ h : i < files.length,
        is_readme (files.get ⟨i, h⟩) = true ∧
        promote_readme base files = files.get ⟨i, h⟩ :: files.eraseIdx i ∧
        ((∃ q ∈ files, is_readme q = true ∧ is_direct_child base q = true) →
          is_direct_child base (files.get ⟨i, h⟩) = true) ∧
        ((¬∃ q ∈ files, is_readme q = true ∧ is_direct_child base q = true) →
          ∀ j (hj : j < i), is_readme (files.get ⟨j, Nat.lt_trans hj h⟩) = false)) := by
  have hmain : 1 < files.length →
      ∃ i, ∃ h : i < files.length,
        is_readme (files.get ⟨i, h⟩) = true ∧
        promote_readme base files = files.get ⟨i, h⟩ :: files.eraseIdx i ∧
        ((∃ q ∈ files, is_readme q = true ∧ is_direct_child base q = true) →
          is_direct_child base (files.get ⟨i, h⟩) = true) ∧
        ((¬∃ q ∈ files, is_readme q = true ∧ is_direct_child base q = true) →
          ∀ j (hj : j < i), is_readme (files.get ⟨j, Nat.lt_trans hj h⟩) = false) := by
    intro hlen
    by_cases hd : ∃ q ∈ files, is_readme q = true ∧ is_direct_child base q = true
    · obtain ⟨q, hq, hq1, hq2⟩ := hd
      cases hv : firstIdxWhere (fun x => is_readme x && is_direct_child base x) files with
      | none =>
        have := (firstIdxWhere_none _ _).1 hv q hq
        simp [hq1, hq2] at this
      | some k =>
        obtain ⟨hk, hpk, _⟩ := firstIdxWhere_some _ files k hv
        rw [Bool.and_eq_true] at hpk
        have hfind : find_preferred_readme base files = some k := by
          rw [find_preferred_readme_eq, hv]
        refine ⟨k, hk, hpk.1, promote_readme_eq_of_find base files hlen k hfind hk, ?_, ?_⟩
        · intro _
          exact hpk.2
        · intro hn
          exact (hn ⟨q, hq, hq1, hq2⟩).elim
    · have hv : firstIdxWhere (fun x => is_readme x && is_direct_child base x) files = none := by
        refine (firstIdxWhere_none _ _).2 ?_
        intro x hx
        cases h1 : is_readme x
        · simp
        · cases h2 : is_direct_child base x
          · simp
          · exact (hd ⟨x, hx, h1, h2⟩).elim
      obtain ⟨q, hq, hq1⟩ := hr
      cases hw : firstIdxWhere is_readme files with
      | none =>
        have := (firstIdxWhere_none _ _).1 hw q hq
        simp [hq1] at this
      | some k =>
        obtain ⟨hk, hpk, hprev⟩ := firstIdxWhere_some _ files k hw
        have hfind : find_preferred_readme base files = some k := by
          rw [find_preferred_readme_eq, hv, hw]
        refine ⟨k, hk, hpk, promote_readme_eq_of_find base files hlen k hfind hk, ?_, ?_⟩
        · intro h
          exact (hd h).elim
        · intro _ j hj
          exact hprev j hj
  refine ⟨?_, hmain⟩
  by_cases hlen : 1 < files.length
  · obtain ⟨i, h, hread, heq, _, _⟩ := hmain hlen
    exact ⟨files.get ⟨i, h⟩, by rw [heq]; rfl, hread⟩
  · have hpr : promote_readme base files = files := by
      unfold promote_readme
      rw [if_pos (by omega)]
    cases files with
    | nil => exact (hne rfl).elim
    | cons x rest =>
      cases rest with
      | nil =>
        obtain ⟨q, hq, hq1⟩ := hr
        simp only [List.mem_singleton] at hq
        subst hq
        exact ⟨q, by rw [hpr]; rfl, hq1⟩
      | cons y t => simp at hlen

/-- Witness for C4: the direct-child `readme.md` is promoted ahead of a
nested `README.txt` that comes earlier in set order. -/
theorem promote_readme_spec_witness :
    ∃ r, (promote_readme ["r"]
        [["r", "sub", "README.txt"], ["r", "readme.md"], ["r", "a.txt"]]).head? = some r ∧
      is_readme r = true :=
  (promote_readme_spec ["r"]
    [["r", "sub", "README.txt"], ["r", "readme.md"], ["r", "a.txt"]]
    (by decide) (by decide)).1

/-! ## Path collector: sortedness and determinism (C3) -/

/-- The prune condition of the walk depends only on the entry path. -/
def prunedAt (p : List String) : Bool :=
  match p.getLast? with
  | some n => IGNORED_DIRS.contains n
  | none => false

theorem is_ignored_dir_dir (p : List String) (es : FsEntries) :
    is_ignored_dir p (.dir es) = prunedAt p := rfl

theorem walkEntry_dir (p : List String) (es : FsEntries) :
    walkEntry p (.dir es) = if prunedAt p then [] else walkEntries p es := by
  unfold walkEntry
  rw [is_ignored_dir_dir]

theorem walkEntry_perm_of_treePerm {t₁ t₂ : FsEntry} (h : TreePerm t₁ t₂) :
    ∀ p, List.Perm (walkEntry p t₁) (walkEntry p t₂) := by
  induction h with
  | file c => intro p; exact List.Perm.refl _
  | nil => intro p; exact List.Perm.refl _
  | cons n h1 h2 ih1 ih2 =>
    intro p
    rw [walkEntry_dir, walkEntry_dir]
    by_cases hig : prunedAt p = true
    · rw [if_pos hig, if_pos hig]
    · rw [if_neg hig, if_neg hig]
      simp only [walkEntries]
      refine List.Perm.append (ih1 (p ++ [n])) ?_
      have h3 := ih2 p
      rw [walkEntry_dir, walkEntry_dir, if_neg hig, if_neg hig] at h3
      exact h3
  | swap n₁ n₂ e₁ e₂ l =>
    intro p
    rw [walkEntry_dir, walkEntry_dir]
    by_cases hig : prunedAt p = true
    · rw [if_pos hig, if_pos hig]
    · rw [if_neg hig, if_neg hig]
      simp only [walkEntries]
      rw [← List.append_assoc, ← List.append_assoc]
      exact List.Perm.append_right _ List.perm_append_comm
  | trans h1 h2 ih1 ih2 => intro p; exact (ih1 p).trans (ih2 p)

theorem sortPaths_perm (l : List (List String)) : List.Perm (sortPaths l) l :=
  List.perm_insertionSort PathLeP l

theorem sortPaths_sorted (l : List (List String)) : List.Sorted PathLeP (sortPaths l) :=
  List.sorted_insertionSort PathLeP l

theorem sortPaths_congr {l₁ l₂ : List (List String)} (h : List.Perm l₁ l₂) :
    sortPaths l₁ = sortPaths l₂ :=
  List.eq_of_perm_of_sorted
    ((sortPaths_perm l₁).trans (h.trans (sortPaths_perm l₂).symm))
    (sortPaths_sorted l₁) (sortPaths_sorted l₂)

theorem promote_readme_of_no_readme (base : List String) (files : List (List String))
    (h : ∀ q ∈ files, is_readme q = false) :
    promote_readme base files = files := by
  unfold promote_readme
  by_cases hlen : files.length ≤ 1
  · rw [if_pos hlen]
  · rw [if_neg hlen]
    have h1 : firstIdxWhere (fun q => is_readme q && is_direct_child base q) files = none :=
      (firstIdxWhere_none _ _).2 (fun x hx => by simp [h x hx])
    have h2 : firstIdxWhere is_readme files = none := (firstIdxWhere_none _ _).2 h
    have hfind : find_preferred_readme base files = none := by
      rw [find_preferred_readme_eq, h1, h2]
    rw [hfind]

/-- C3: for a directory target, the path collector's list before README
promotion is sorted by full path in the component-wise byte/lexicographic
order; with no README present the output is exactly the sort of the
walked full paths; and the output is independent of the filesystem
enumeration order (any reordering of directory children at any depth
yields the same result). -/
theorem collect_from_path_sorted_deterministic (p : List String) (es : FsEntries) :
    List.Sorted PathLeP (sortPaths (walkEntry p (.dir es))) ∧
    ((∀ q ∈ walkEntry p (.dir es), is_readme q = false) →
      collect_from_path p (.dir es) = sortPaths (walkEntry p (.dir es))) ∧
    (∀ es₂, TreePerm (.dir es) (.dir es₂) →
      collect_from_path p (.dir es) = collect_from_path p (.dir es₂)) := by
  refine ⟨sortPaths_sorted _, ?_, ?_⟩
  · intro h
    show promote_readme p (sortPaths (walkEntry p (.dir es))) = _
    refine promote_readme_of_no_readme p _ ?_
    intro q hq
    exact h q ((sortPaths_perm _).mem_iff.1 hq)
  · intro es₂ hperm
    have hw := walkEntry_perm_of_treePerm hperm p
    show promote_readme p (sortPaths (walkEntry p (.dir es))) =
      promote_readme p (sortPaths (walkEntry p (.dir es₂)))
    rw [sortPaths_congr hw]

/-- Witness for C3: a two-file directory, also given with its children
swapped; the collector returns the same sorted list for both orders. -/
theorem collect_from_path_sorted_deterministic_witness :
    collect_from_path ["r"] (.dir (.cons "b.txt" (.file "b") (.cons "a.txt" (.file "a") .nil))) =
      sortPaths (walkEntry ["r"]
        (.dir (.cons "b.txt" (.file "b") (.cons "a.txt" (.file "a") .nil)))) ∧
    collect_from_path ["r"] (.dir (.cons "b.txt" (.file "b") (.cons "a.txt" (.file "a") .nil))) =
      collect_from_path ["r"] (.dir (.cons "a.txt" (.file "a") (.cons "b.txt" (.file "b") .nil))) :=
  ⟨(collect_from_path_sorted_deterministic ["r"]
      (.cons "b.txt" (.file "b") (.cons "a.txt" (.file "a") .nil))).2.1 (by decide),
   (collect_from_path_sorted_deterministic ["r"]
      (.cons "b.txt" (.file "b") (.cons "a.txt" (.file "a") .nil))).2.2
      (.cons "a.txt" (.file "a") (.cons "b.txt" (.file "b") .nil))
      (TreePerm.swap "b.txt" "a.txt" (.file "b") (.file "a") .nil)⟩

/-! ## Preset merge (C5, C6) -/

theorem firstKeep_cons (a : List String) (l : List (List String)) :
    firstKeep (a :: l) = a :: firstKeep (l.filter (fun b => b ≠ a)) := by
  simp [firstKeep]

theorem firstKeep_mem : ∀ (l : List (List String)) (x : List String),
    x ∈ firstKeep l ↔ x ∈ l
  | [], x => by simp [firstKeep]
  | a :: l, x => by
    rw [firstKeep_cons]
    by_cases hx : x = a
    · subst hx
      simp
    · have := firstKeep_mem (l.filter (fun b => b ≠ a)) x
      simp only [List.mem_cons, this, List.mem_filter]
      constructor
      · rintro (h | ⟨h, _⟩)
        · exact (hx h).elim
        · exact Or.inr h
      · rintro (h | h)
        · exact (hx h).elim
        · exact Or.inr ⟨h, by simp [hx]⟩
termination_by l => l.length
decreasing_by
  simp only [List.length_cons]
  exact Nat.lt_succ_of_le (l.length_filter_le _)

theorem firstKeep_nodup : ∀ l : List (List String), (firstKeep l).Nodup
  | [] => by simp [firstKeep]
  | a :: l => by
    rw [firstKeep_cons]
    refine List.nodup_cons.2 ⟨?_, firstKeep_nodup (l.filter (fun b => b ≠ a))⟩
    intro hmem
    have := (firstKeep_mem _ _).1 hmem
    simp at this
termination_by l => l.length
decreasing_by
  simp only [List.length_cons]
  exact Nat.lt_succ_of_le (l.length_filter_le _)

theorem foldl_insertIdem : ∀ (l acc : List (List String)),
    l.foldl insertIdem acc = acc ++ firstKeep (l.filter (fun a => !(decide (a ∈ acc))))
  | [], acc => by simp [firstKeep]
  | a :: l, acc => by
    simp only [List.foldl_cons]
    by_cases hm : a ∈ acc
    · have h1 : insertIdem acc a = acc := if_pos hm
      rw [h1, foldl_insertIdem l acc]
      have h2 : List.filter (fun b => !(decide (b ∈ acc))) (a :: l) =
          List.filter (fun b => !(decide (b ∈ acc))) l := by
        simp [List.filter_cons, hm]
      rw [h2]
    · have h1 : insertIdem acc a = acc ++ [a] := if_neg hm
      rw [h1, foldl_insertIdem l (acc ++ [a])]
      have h2 : List.filter (fun b => !(decide (b ∈ acc ++ [a]))) l =
          (List.filter (fun b => !(decide (b ∈ acc))) l).filter (fun b => b ≠ a) := by
        rw [List.filter_filter]
        refine (List.filter_congr ?_).symm
        intro b _
        by_cases hba : b = a <;> by_cases hbacc : b ∈ acc <;>
          simp [hba, hbacc, List.mem_append]
      have h3 : List.filter (fun b => !(decide (b ∈ acc))) (a :: l) =
          a :: List.filter (fun b => !(decide (b ∈ acc))) l := by
        simp [List.filter_cons, hm]
      rw [h2, h3, firstKeep_cons, List.append_assoc]
      rfl

theorem presetLoop_ok (matcher exclMatcher : String → List String → Bool) (name : String)
    (base : List String) (excl : Option (List String)) (es : FsEntries) :
    ∀ (pats : List String) (acc : List (List String)),
      (∀ pat ∈ pats, collect_pattern_matches matcher exclMatcher pat base excl es ≠ []) →
      presetLoop matcher exclMatcher name base excl es pats acc =
        .ok (((pats.map (fun pat =>
          collect_pattern_matches matcher exclMatcher pat base excl es)).flatten).foldl
            insertIdem acc) := by
  intro pats
  induction pats with
  | nil => intro acc _; simp [presetLoop]
  | cons pat rest ih =>
    intro acc hnz
    have hne : collect_pattern_matches matcher exclMatcher pat base excl es ≠ [] :=
      hnz pat (by simp)
    have hemp : (collect_pattern_matches matcher exclMatcher pat base excl es).isEmpty = false := by
      cases hv : collect_pattern_matches matcher exclMatcher pat base excl es with
      | nil => exact (hne hv).elim
      | cons x xs => rfl
    simp only [presetLoop, hemp, Bool.false_eq_true, if_false]
    rw [ih _ (fun q hq => hnz q (by simp [hq]))]
    simp [List.foldl_append]

/-- C5: when every include pattern of a preset matches at least one file,
the merge before README promotion succeeds and is exactly the
first-insertion-order deduplication of the per-pattern match lists taken
in configuration order (each file once, at the position of its first
match); each per-pattern list is itself sorted. `base`, `excl` and `es`
are the preset's resolved base, compiled exclude set and base-directory
entries as used by `collect_from_preset`. -/
theorem preset_merge_first_insertion (matcher exclMatcher : String → List String → Bool)
    (name : String) (base : List String) (excl : Option (List String)) (es : FsEntries)
    (pats : List String)
    (hnz : ∀ pat ∈ pats, collect_pattern_matches matcher exclMatcher pat base excl es ≠ []) :
    presetLoop matcher exclMatcher name base excl es pats [] =
      .ok (firstKeep ((pats.map (fun pat =>
        collect_pattern_matches matcher exclMatcher pat base excl es)).flatten)) ∧
    (firstKeep ((pats.map (fun pat =>
        collect_pattern_matches matcher exclMatcher pat base excl es)).flatten)).Nodup ∧
    (∀ a, a ∈ firstKeep ((pats.map (fun pat =>
        collect_pattern_matches matcher exclMatcher pat base excl es)).flatten) ↔
      a ∈ (pats.map (fun pat =>
        collect_pattern_matches matcher exclMatcher pat base excl es)).flatten) ∧
    (∀ pat ∈ pats, List.Sorted PathLeP
      (collect_pattern_matches matcher exclMatcher pat base excl es)) := by
  refine ⟨?_, firstKeep_nodup _, fun a => firstKeep_mem _ a, ?_⟩
  · rw [presetLoop_ok matcher exclMatcher name base excl es pats [] hnz,
      foldl_insertIdem]
    have : List.filter (fun a => !(decide (a ∈ ([] : List (List String)))))
        ((pats.map (fun pat =>
          collect_pattern_matches matcher exclMatcher pat base excl es)).flatten) =
        (pats.map (fun pat =>
          collect_pattern_matches matcher exclMatcher pat base excl es)).flatten := by
      refine List.filter_eq_self.2 ?_
      intro b _
      simp
    rw [this]
    rfl
  · intro pat _
    exact sortPaths_sorted _

theorem firstKeep_eq_foldl (l : List (List String)) :
    firstKeep l = l.foldl insertIdem [] := by
  rw [foldl_insertIdem]
  have e : List.filter (fun a => !(decide (a ∈ ([] : List (List String))))) l = l := by
    refine List.filter_eq_self.2 ?_
    intro b _
    simp
  rw [e]
  rfl

/-- Witness for C5: two patterns where the second matches a subset of the
first; the merge succeeds with each path once, at its first position. -/
theorem preset_merge_first_insertion_witness :
    presetLoop (fun pat rel => pat == "**/*" || rel == ["b.rs"]) (fun _ _ => false)
        "demo" ["r"] none
        (.cons "a.rs" (.file "a") (.cons "b.rs" (.file "b") .nil))
        ["**/*", "sub"] [] =
      .ok [["r", "a.rs"], ["r", "b.rs"]] := by
  have h := (preset_merge_first_insertion
    (fun pat rel => pat == "**/*" || rel == ["b.rs"]) (fun _ _ => false)
    "demo" ["r"] none
    (.cons "a.rs" (.file "a") (.cons "b.rs" (.file "b") .nil))
    ["**/*", "sub"] (by decide)).1
  rw [h, firstKeep_eq_foldl]
  decide

theorem presetLoop_error (matcher exclMatcher : String → List String → Bool) (name : String)
    (base : List String) (excl : Option (List String)) (es : FsEntries) :
    ∀ (pre : List String) (pat : String) (post : List String) (acc : List (List String)),
      (∀ q ∈ pre, collect_pattern_matches matcher exclMatcher q base excl es ≠ []) →
      collect_pattern_matches matcher exclMatcher pat base excl es = [] →
      presetLoop matcher exclMatcher name base excl es (pre ++ pat :: post) acc =
        .error ("no files matched pattern '" ++ pat ++ "' in preset '" ++ name ++ "'") := by
  intro pre
  induction pre with
  | nil =>
    intro pat post acc _ hempty
    simp only [List.nil_append, presetLoop, hempty, List.isEmpty_nil, if_true]
  | cons q rest ih =>
    intro pat post acc hpre hempty
    have hne : collect_pattern_matches matcher exclMatcher q base excl es ≠ [] :=
      hpre q (by simp)
    have hemp : (collect_pattern_matches matcher exclMatcher q base excl es).isEmpty = false := by
      cases hv : collect_pattern_matches matcher exclMatcher q base excl es with
      | nil => exact (hne hv).elim
      | cons x xs => rfl
    simp only [List.cons_append, presetLoop, hemp, Bool.false_eq_true, if_false]
    exact ih pat post _ (fun r hr => hpre r (by simp [hr])) hempty

/-- C6: if an include pattern of a preset yields zero files after exclude
and ignore-directory filtering — `pat` being the first such pattern, all
patterns before it having matches — the preset collector fails with the
error naming the preset and the offending pattern, rather than returning
an empty or partial success. This covers in particular patterns whose
matches were entirely removed by an exclude pattern. -/
theorem collect_from_preset_pattern_matched_nothing
    (matcher exclMatcher : String → List String → Bool)
    (fs : List String → Option FsEntry) (name : String) (preset : Preset)
    (repoRoot : List String) (pre : List String) (pat : String) (post : List String)
    (hsplit : preset.includes = pre ++ pat :: post)
    (hpre : ∀ q ∈ pre, collect_pattern_matches matcher exclMatcher q
      (resolve_base preset repoRoot) (build_globset preset.excludes)
      (entriesAt fs (resolve_base preset repoRoot)) ≠ [])
    (hempty : collect_pattern_matches matcher exclMatcher pat
      (resolve_base preset repoRoot) (build_globset preset.excludes)
      (entriesAt fs (resolve_base preset repoRoot)) = []) :
    collect_from_preset matcher exclMatcher fs name preset repoRoot =
      .error ("no files matched pattern '" ++ pat ++ "' in preset '" ++ name ++ "'") := by
  unfold collect_from_preset
  rw [hsplit]
  dsimp only
  rw [presetLoop_error matcher exclMatcher name _ _ _ pre pat post [] hpre hempty]
  rfl

/-- Witness for C6: a pattern that does match files, all of which are
then removed by the exclude matcher, still aborts the preset with the
`no files matched` error. -/
theorem collect_from_preset_pattern_matched_nothing_witness :
    collect_from_preset (fun _ _ => true) (fun _ _ => true)
        (fun p => if p = ["r"] then
          some (.dir (.cons "lib.rs" (.file "x") .nil)) else none)
        "rust" ⟨["src/**/*.rs"], ["src/lib.rs"], none⟩ ["r"] =
      .error ("no files matched pattern '" ++ "src/**/*.rs" ++ "' in preset '" ++ "rust" ++ "'") :=
  collect_from_preset_pattern_matched_nothing (fun _ _ => true) (fun _ _ => true)
    (fun p => if p = ["r"] then
      some (.dir (.cons "lib.rs" (.file "x") .nil)) else none)
    "rust" ⟨["src/**/*.rs"], ["src/lib.rs"], none⟩ ["r"] [] "src/**/*.rs" []
    (by decide) (by decide) (by decide)

/-! ## Target resolution (C7) -/

/-- C7: target resolution interprets the argument as a path — used
verbatim when absolute, joined to the base directory when relative — and
when that path exists it dispatches to the path collector, for every
configuration, including one containing a preset of the same name; the
preset collector is only reachable when the path does not exist. -/
theorem determine_target_path_precedence (matcher exclMatcher : String → List String → Bool)
    (fs : List String → Option FsEntry) (argument : String) (repoRoot : List String)
    (config : Option ConfigFile)
    (hex : (fs (parse_target_path argument repoRoot)).isSome = true) :
    determine_target matcher exclMatcher fs (some argument) repoRoot config =
      (collectFromPathFs fs (parse_target_path argument repoRoot)).map
        (fun files => (files, "path " ++ pathDisplay (parse_target_path argument repoRoot))) ∧
    (isAbsolutePath (parsePath argument) = true →
      parse_target_path argument repoRoot = parsePath argument) ∧
    (isAbsolutePath (parsePath argument) = false →
      parse_target_path argument repoRoot = repoRoot ++ parsePath argument) := by
  refine ⟨?_, ?_, ?_⟩
  · simp only [determine_target]
    rw [if_pos hex]
  · intro h
    unfold parse_target_path
    rw [if_pos h]
  · intro h
    unfold parse_target_path
    rw [if_neg (by simp [h])]

/-- Witness for C7: a real directory `docs` exists while the
configuration also has a preset named `docs`; the path collector wins. -/
theorem determine_target_path_precedence_witness :
    determine_target (fun _ _ => true) (fun _ _ => false)
        (fun p => if p = ["/", "repo", "docs"] then some (.dir .nil) else none)
        (some "docs") ["/", "repo"]
        (some ⟨1, [("docs", ⟨["**/*.md"], [], none⟩)]⟩) =
      (collectFromPathFs
          (fun p => if p = ["/", "repo", "docs"] then some (.dir .nil) else none)
          (parse_target_path "docs" ["/", "repo"])).map
        (fun files => (files, "path " ++ pathDisplay (parse_target_path "docs" ["/", "repo"]))) :=
  (determine_target_path_precedence (fun _ _ => true) (fun _ _ => false)
    (fun p => if p = ["/", "repo", "docs"] then some (.dir .nil) else none)
    "docs" ["/", "repo"]
    (some ⟨1, [("docs", ⟨["**/*.md"], [], none⟩)]⟩) (by decide)).1

/-! ## Membership through promotion and sorting -/

theorem cons_eraseIdx_perm : ∀ (l : List (List String)) (i : Nat) (h : i < l.length),
    List.Perm (l.get ⟨i, h⟩ :: l.eraseIdx i) l
  | [], i, h => by simp at h
  | x :: t, 0, _ => by simp
  | x :: t, i + 1, h => by
    simp only [List.get_cons_succ, List.eraseIdx_cons_succ]
    exact (List.Perm.swap x _ _).trans
      ((cons_eraseIdx_perm t i (by simpa using h)).cons x)

theorem promote_readme_perm (base : List String) (files : List (List String)) :
    List.Perm (promote_readme base files) files := by
  unfold promote_readme
  by_cases hlen : files.length ≤ 1
  · rw [if_pos hlen]
  · rw [if_neg hlen]
    cases hfind : find_preferred_readme base files with
    | none => exact List.Perm.refl _
    | some idx =>
      dsimp only
      by_cases h0 : idx = 0
      · rw [if_pos h0]
      · rw [if_neg h0]
        cases hget : files[idx]? with
        | none => exact List.Perm.refl _
        | some readme =>
          have hlt : idx < files.length := by
            cases hv : Nat.decLt idx files.length with
            | isTrue h => exact h
            | isFalse h =>
              rw [List.getElem?_eq_none (by omega)] at hget
              exact Option.noConfusion hget
          have hlt2 : files.get ⟨idx, hlt⟩ = readme := by
            rw [List.getElem?_eq_getElem hlt] at hget
            exact Option.some.inj hget
          rw [← hlt2]
          exact cons_eraseIdx_perm files idx hlt

theorem mem_collect_from_path_dir (p : List String) (es : FsEntries) (q : List String) :
    q ∈ collect_from_path p (.dir es) ↔ q ∈ walkEntry p (.dir es) := by
  show q ∈ promote_readme p (sortPaths (walkEntry p (.dir es))) ↔ _
  rw [(promote_readme_perm _ _).mem_iff, (sortPaths_perm _).mem_iff]

/-! ## Shape of walked paths (C8, C9, C10) -/

theorem not_mem_of_contains_eq_false {n : String} {l : List String}
    (h : l.contains n = false) : ¬n ∈ l := by
  intro hmem
  have h3 : l.contains n = true := List.elem_eq_true_of_mem hmem
  rw [h3] at h
  exact Bool.noConfusion h

mutual
theorem walkEntry_shape : ∀ (e : FsEntry) (p q : List String), q ∈ walkEntry p e →
    ∃ rel, q = p ++ rel ∧ (∀ d ∈ rel.dropLast, ¬d ∈ IGNORED_DIRS) ∧
      (rel ≠ [] → ∀ n, p.getLast? = some n → ¬n ∈ IGNORED_DIRS)
  | .file c, p, q, h => by
    have h2 : q = p := by
      have h3 : walkEntry p (.file c) = [p] := by
        unfold walkEntry is_ignored_dir FsEntry.isDir
        rfl
      rw [h3] at h
      simpa using h
    exact ⟨[], by simpa using h2, by simp, fun hne => (hne rfl).elim⟩
  | .dir es, p, q, h => by
    rw [walkEntry_dir] at h
    by_cases hig : prunedAt p = true
    · rw [if_pos hig] at h
      simp at h
    · rw [if_neg hig] at h
      obtain ⟨rel, _, hq, hd⟩ := walkEntries_shape es p q h
      refine ⟨rel, hq, hd, ?_⟩
      intro _ n hlast
      unfold prunedAt at hig
      rw [hlast] at hig
      exact not_mem_of_contains_eq_false (by
        cases hv : IGNORED_DIRS.contains n
        · rfl
        · exact absurd hv hig)

theorem walkEntries_shape : ∀ (es : FsEntries) (p q : List String), q ∈ walkEntries p es →
    ∃ rel, rel ≠ [] ∧ q = p ++ rel ∧ (∀ d ∈ rel.dropLast, ¬d ∈ IGNORED_DIRS)
  | .nil, p, q, h => by simp [walkEntries] at h
  | .cons n e rest, p, q, h => by
    simp only [walkEntries, List.mem_append] at h
    rcases h with h | h
    · obtain ⟨rel0, hq, hd0, hlast0⟩ := walkEntry_shape e (p ++ [n]) q h
      refine ⟨n :: rel0, by simp, ?_, ?_⟩
      · rw [hq, List.append_assoc]
        rfl
      · cases hrel0 : rel0 with
        | nil => simp
        | cons r0 t0 =>
          rw [List.dropLast_cons_of_ne_nil (by simp)]
          intro d hd
          rcases List.mem_cons.1 hd with hd | hd
          · subst hd
            exact hlast0 (by simp [hrel0]) d (by simp) 
          · exact hd0 d (by rw [hrel0]; exact hd)
    · exact walkEntries_shape rest p q h
end

theorem patEntry_dir (matcher : String → List String → Bool) (pattern : String)
    (rel : List String) (es : FsEntries) :
    patEntry matcher pattern rel (.dir es) =
      if prunedAt rel then [] else patEntries matcher pattern rel es := by
  unfold patEntry
  rw [is_ignored_dir_dir]

mutual
theorem patEntry_shape : ∀ (e : FsEntry) (matcher : String → List String → Bool)
    (pattern : String) (rel q : List String), q ∈ patEntry matcher pattern rel e →
    ∃ sub, q = rel ++ sub ∧ (∀ d ∈ sub.dropLast, ¬d ∈ IGNORED_DIRS) ∧
      (sub ≠ [] → ∀ n, rel.getLast? = some n → ¬n ∈ IGNORED_DIRS)
  | .file c, matcher, pattern, rel, q, h => by
    have h3 : patEntry matcher pattern rel (.file c) =
        if matcher pattern rel then [rel] else [] := by
      unfold patEntry is_ignored_dir FsEntry.isDir
      rfl
    rw [h3] at h
    by_cases hm : matcher pattern rel = true
    · rw [if_pos hm] at h
      have h2 : q = rel := by simpa using h
      exact ⟨[], by simpa using h2, by simp, fun hne => (hne rfl).elim⟩
    · rw [if_neg hm] at h
      simp at h
  | .dir es, matcher, pattern, rel, q, h => by
    rw [patEntry_dir] at h
    by_cases hig : prunedAt rel = true
    · rw [if_pos hig] at h
      simp at h
    · rw [if_neg hig] at h
      obtain ⟨sub, _, hq, hd⟩ := patEntries_shape es matcher pattern rel q h
      refine ⟨sub, hq, hd, ?_⟩
      intro _ n hlast
      unfold prunedAt at hig
      rw [hlast] at hig
      exact not_mem_of_contains_eq_false (by
        cases hv : IGNORED_DIRS.contains n
        · rfl
        · exact absurd hv hig)

theorem patEntries_shape : ∀ (es : FsEntries) (matcher : String → List String → Bool)
    (pattern : String) (rel q : List String), q ∈ patEntries matcher pattern rel es →
    ∃ sub, sub ≠ [] ∧ q = rel ++ sub ∧ (∀ d ∈ sub.dropLast, ¬d ∈ IGNORED_DIRS)
  | .nil, matcher, pattern, rel, q, h => by simp [patEntries] at h
  | .cons n e rest, matcher, pattern, rel, q, h => by
    simp only [patEntries, List.mem_append] at h
    rcases h with h | h
    · obtain ⟨sub0, hq, hd0, hlast0⟩ := patEntry_shape e matcher pattern (rel ++ [n]) q h
      refine ⟨n :: sub0, by simp, ?_, ?_⟩
      · rw [hq, List.append_assoc]
        rfl
      · cases hsub0 : sub0 with
        | nil => simp
        | cons r0 t0 =>
          rw [List.dropLast_cons_of_ne_nil (by simp)]
          intro d hd
          rcases List.mem_cons.1 hd with hd | hd
          · subst hd
            exact hlast0 (by simp [hsub0]) d (by simp)
          · exact hd0 d (by rw [hsub0]; exact hd)
    · exact patEntries_shape rest matcher pattern rel q h
end

theorem mem_collect_pattern_matches
    {matcher exclMatcher : String → List String → Bool} {pattern : String}
    {base : List String} {excl : Option (List String)} {es : FsEntries}
    {q : List String} (h : q ∈ collect_pattern_matches matcher exclMatcher pattern base excl es) :
    ∃ rel, rel ∈ patEntries matcher pattern [] es ∧ q = base ++ rel := by
  simp only [collect_pattern_matches] at h
  have h2 := (sortPaths_perm _).mem_iff.1 h
  rcases List.mem_filter.1 h2 with ⟨hmap, _⟩
  rcases List.mem_map.1 hmap with ⟨rel, hrel, hq⟩
  exact ⟨rel, hrel, hq.symm⟩

theorem mem_foldl_insertIdem : ∀ (pm acc : List (List String)) (q : List String),
    q ∈ pm.foldl insertIdem acc → q ∈ acc ∨ q ∈ pm
  | [], acc, q, h => Or.inl h
  | a :: pm, acc, q, h => by
    simp only [List.foldl_cons] at h
    rcases mem_foldl_insertIdem pm (insertIdem acc a) q h with h2 | h2
    · unfold insertIdem at h2
      by_cases hm : a ∈ acc
      · rw [if_pos hm] at h2
        exact Or.inl h2
      · rw [if_neg hm] at h2
        rcases List.mem_append.1 h2 with h3 | h3
        · exact Or.inl h3
        · exact Or.inr (by simpa using Or.inl (by simpa using h3))
    · exact Or.inr (List.mem_cons.2 (Or.inr h2))

theorem mem_presetLoop_ok (matcher exclMatcher : String → List String → Bool) (name : String)
    (base : List String) (excl : Option (List String)) (es : FsEntries) :
    ∀ (pats : List String) (acc files : List (List String)),
      presetLoop matcher exclMatcher name base excl es pats acc = .ok files →
      ∀ q ∈ files, q ∈ acc ∨ ∃ pat ∈ pats,
        q ∈ collect_pattern_matches matcher exclMatcher pat base excl es := by
  intro pats
  induction pats with
  | nil =>
    intro acc files h q hq
    simp only [presetLoop, Except.ok.injEq] at h
    subst h
    exact Or.inl hq
  | cons pat rest ih =>
    intro acc files h q hq
    simp only [presetLoop] at h
    cases hemp : (collect_pattern_matches matcher exclMatcher pat base excl es).isEmpty with
    | true => rw [hemp] at h; simp at h
    | false =>
      rw [hemp] at h
      simp only [Bool.false_eq_true, if_false] at h
      rcases ih _ _ h q hq with h2 | ⟨pat2, hpat2, hq2⟩
      · rcases mem_foldl_insertIdem _ _ _ h2 with h3 | h3
        · exact Or.inl h3
        · exact Or.inr ⟨pat, by simp, h3⟩
      · exact Or.inr ⟨pat2, by simp [hpat2], hq2⟩

/-- Counterexample to C8 as stated: pointing the path collector at a
directory that itself lies inside `.git` returns files whose full paths
contain the ignored directory name — the ignore filter never inspects
components of the target's own path. -/
theorem collect_inside_ignored_dir_counterexample :
    collect_from_path ["/", "repo", ".git", "hooks"]
        (.dir (.cons "pre-commit" (.file "x") .nil)) =
      [["/", "repo", ".git", "hooks", "pre-commit"]] ∧
    ".git" ∈ IGNORED_DIRS ∧
    ".git" ∈ (["/", "repo", ".git", "hooks", "pre-commit"] : List String).dropLast := by
  decide

/-- C8 (amended): for every target, no returned file path lies inside a
directory named `.git`, `target` or `node_modules` at any depth *below
the collection root* (the target path for the path collector, the
resolved preset base for the preset collector): every directory
component of the path relative to that root avoids the ignored names.
Components of the root's own path are exempt (see the counterexample). -/
theorem no_ignored_dir_below_collection_root :
    (∀ (p : List String) (e : FsEntry) (q : List String), q ∈ collect_from_path p e →
      ∀ d ∈ (q.drop p.length).dropLast, ¬d ∈ IGNORED_DIRS) ∧
    (∀ (matcher exclMatcher : String → List String → Bool)
      (fs : List String → Option FsEntry) (name : String) (preset : Preset)
      (repoRoot : List String) (files : List (List String)),
      collect_from_preset matcher exclMatcher fs name preset repoRoot = .ok files →
      ∀ q ∈ files,
        ∀ d ∈ ((q.drop (resolve_base preset repoRoot).length).dropLast),
          ¬d ∈ IGNORED_DIRS) := by
  constructor
  · intro p e q hq
    cases e with
    | file c =>
      have h2 : q = p := by
        simpa [collect_from_path] using hq
      subst h2
      simp
    | dir es =>
      rw [mem_collect_from_path_dir] at hq
      obtain ⟨rel, hq2, hd, _⟩ := walkEntry_shape _ _ _ hq
      subst hq2
      rw [List.drop_left]
      exact hd
  · intro matcher exclMatcher fs name preset repoRoot files h q hq
    unfold collect_from_preset at h
    dsimp only at h
    cases hv : presetLoop matcher exclMatcher name (resolve_base preset repoRoot)
        (build_globset preset.excludes) (entriesAt fs (resolve_base preset repoRoot))
        preset.includes [] with
    | error err => rw [hv] at h; simp [Except.map] at h
    | ok files0 =>
      rw [hv] at h
      simp only [Except.map, Except.ok.injEq] at h
      subst h
      have hq0 : q ∈ files0 := (promote_readme_perm _ _).mem_iff.1 hq
      rcases mem_presetLoop_ok _ _ _ _ _ _ _ _ _ hv q hq0 with h2 | ⟨pat, _, h2⟩
      · simp at h2
      · obtain ⟨rel, hrel, hq2⟩ := mem_collect_pattern_matches h2
        obtain ⟨sub, _, hrel2, hd⟩ := patEntries_shape _ _ _ _ _ hrel
        rw [List.nil_append] at hrel2
        subst hrel2
        subst hq2
        rw [List.drop_left]
        exact hd

/-- Witness for C8 (amended): a preset whose `**/*` pattern sees a tree
containing `target/ignored.rs`; the collector succeeds and the returned
relative paths never pass through an ignored directory. -/
theorem no_ignored_dir_below_collection_root_witness :
    collect_from_preset (fun _ _ => true) (fun _ _ => false)
        (fun p => if p = ["r"] then
          some (.dir (.cons "src" (.dir (.cons "main.rs" (.file "m") .nil))
            (.cons "target" (.dir (.cons "ignored.rs" (.file "i") .nil)) .nil)))
          else none)
        "everything" ⟨["**/*"], [], none⟩ ["r"] =
      .ok [["r", "src", "main.rs"]] ∧
    (∀ q ∈ [["r", "src", "main.rs"]],
      ∀ d ∈ ((q.drop (["r"] : List String).length).dropLast), ¬d ∈ IGNORED_DIRS) := by
  constructor
  · decide
  · intro q hq d hd
    exact (no_ignored_dir_below_collection_root).2 (fun _ _ => true) (fun _ _ => false)
      (fun p => if p = ["r"] then
        some (.dir (.cons "src" (.dir (.cons "main.rs" (.file "m") .nil))
          (.cons "target" (.dir (.cons "ignored.rs" (.file "i") .nil)) .nil)))
        else none)
      "everything" ⟨["**/*"], [], none⟩ ["r"] [["r", "src", "main.rs"]]
      (by decide) q hq d hd

/-- C9: a directory target whose own name is in the ignore set yields an
empty file set without error — the walk's entry filter prunes the root
itself. -/
theorem collect_ignored_root_empty (fs : List String → Option FsEntry)
    (p : List String) (es : FsEntries) (n : String)
    (hlast : p.getLast? = some n) (hig : n ∈ IGNORED_DIRS)
    (hfs : fs p = some (.dir es)) :
    collectFromPathFs fs p = .ok [] := by
  unfold collectFromPathFs
  rw [hfs]
  have hpr : prunedAt p = true := by
    unfold prunedAt
    rw [hlast]
    exact List.elem_eq_true_of_mem hig
  have hw : walkEntry p (.dir es) = [] := by
    rw [walkEntry_dir, if_pos hpr]
  show Except.ok (promote_readme p (sortPaths (walkEntry p (.dir es)))) = Except.ok []
  rw [hw]
  rfl

/-- Witness for C9: a populated directory named `target` collects to an
empty set without error. -/
theorem collect_ignored_root_empty_witness :
    collectFromPathFs
      (fun q => if q = ["r", "target"] then
        some (.dir (.cons "a.rs" (.file "x") .nil)) else none)
      ["r", "target"] = .ok [] :=
  collect_ignored_root_empty
    (fun q => if q = ["r", "target"] then
      some (.dir (.cons "a.rs" (.file "x") .nil)) else none)
    ["r", "target"] (.cons "a.rs" (.file "x") .nil) "target"
    (by decide) (by decide) (by decide)

theorem mem_walkEntries_of_file_child : ∀ (es : FsEntries) (p : List String) (n c : String),
    (n, FsEntry.file c) ∈ es.toList → (p ++ [n]) ∈ walkEntries p es
  | .nil, _, _, _, h => by simp [FsEntries.toList] at h
  | .cons m e rest, p, n, c, h => by
    simp only [FsEntries.toList, List.mem_cons, Prod.mk.injEq] at h
    rcases h with ⟨h1, h2⟩ | h
    · subst h1
      subst h2
      simp only [walkEntries, List.mem_append]
      refine Or.inl ?_
      have h3 : walkEntry (p ++ [n]) (.file c) = [p ++ [n]] := by
        unfold walkEntry is_ignored_dir FsEntry.isDir
        rfl
      rw [h3]
      simp
    · simp only [walkEntries, List.mem_append]
      exact Or.inr (mem_walkEntries_of_file_child rest p n c h)

/-- C10: ignore pruning applies only to directory entries — a regular
file whose name is in the ignore set (here inside a directory whose own
name is not ignored) is not skipped and appears in the returned set. -/
theorem ignored_name_file_not_skipped (p : List String) (es : FsEntries)
    (n c rootName : String)
    (hmem : (n, FsEntry.file c) ∈ es.toList)
    (hlast : p.getLast? = some rootName) (hroot : ¬rootName ∈ IGNORED_DIRS)
    (_hn : n ∈ IGNORED_DIRS) :
    (p ++ [n]) ∈ collect_from_path p (.dir es) := by
  rw [mem_collect_from_path_dir, walkEntry_dir]
  have hpr : prunedAt p = false := by
    unfold prunedAt
    rw [hlast]
    cases hv : IGNORED_DIRS.contains rootName
    · exact hv
    · exact absurd (List.mem_of_elem_eq_true hv) hroot
  rw [if_neg (by simp [hpr])]
  exact mem_walkEntries_of_file_child es p n c hmem

/-- Witness for C10: a plain file literally named `target` next to a
source file is returned by the path collector. -/
theorem ignored_name_file_not_skipped_witness :
    (["r"] ++ ["target"]) ∈ collect_from_path ["r"]
      (.dir (.cons "a.rs" (.file "x") (.cons "target" (.file "plain") .nil))) :=
  ignored_name_file_not_skipped ["r"]
    (.cons "a.rs" (.file "x") (.cons "target" (.file "plain") .nil))
    "target" "plain" "r" (by decide) (by decide) (by decide) (by decide)
